import Mathlib

/-!
Verification of `scraper.py` (UCLA course-catalog scraper).

Shallow embedding of the program's pure core:
* the matcher `mentions_math_31a` (regex `\b(?:Mathematics|Math\.?|MATH)\s+31A\b`
  applied with `re.search`), embedded as an executable scan over the character
  list, with the Python character classes `\s` / `\w` modelled over their ASCII
  sets (the inputs the program handles are ASCII course descriptions);
* the normaliser `normalise` (dedup by (subj_area_cd, course_title) key,
  matcher re-check, field mapping with missing-value defaults and trimming,
  sort by (subject_area, course_name));
* the fetcher `fetch_json` retry loop, with network effects replaced by an
  oracle giving the outcome of each attempt, and sleeps recorded as a trace;
* the two collection strategies' control flow and the `main` orchestrator's
  exit-code / export logic.

Python's `list.sort(key=...)` is a stable sort by the key; it is embedded as
`List.insertionSort` (also stable) under the lexicographic order on the
(subject_area, course_name) pair of strings, which computes the same function.
-/

/-- Python `\s` (ASCII): space, tab, newline, carriage return, vertical tab,
form feed. `Char.ofNat 11` is `\v`, `Char.ofNat 12` is `\f`. -/
def isSpaceChar (c : Char) : Bool :=
  c == ' ' || c == '\t' || c == '\n' || c == '\r' || c == Char.ofNat 11 || c == Char.ofNat 12

/-- Python `\w` (ASCII): letters, digits, underscore. Used for the `\b` word
boundaries of the regex. -/
def isWordChar (c : Char) : Bool :=
  c.isAlphanum || c == '_'

/-- The alternation `(?:Mathematics|Math\.?|MATH)` of the regex, expanded:
`Math\.?` matches either `Math.` or `Math`. -/
def labelSpellings : List (List Char) :=
  ["Mathematics".data, "Math.".data, "Math".data, "MATH".data]

/-- The literal course code `31A` of the regex. -/
def code31A : List Char := ['3', '1', 'A']

/-- The trailing `\b` of the regex: the position after `31A` (whose last char
is a word char) is a word boundary iff the input ends there or the next
character is not a word character. -/
def boundaryAfter : List Char → Bool
  | [] => true
  | c :: _ => !isWordChar c

/-- The leading `\b` of the regex: every alternative starts with the word
character `M`, so the boundary holds iff the match is at the start of the
input or the preceding character is not a word character. -/
def boundaryBefore : Option Char → Bool
  | none => true
  | some c => !isWordChar c

/-- After a label spelling, `\s+31A\b`: at least one whitespace character, then
`31A`, then a word boundary.  (`3` is not whitespace, so consuming the maximal
whitespace run is equivalent to the regex's backtracking `\s+`.) -/
def afterLabel (cs : List Char) : Bool :=
  (!(cs.takeWhile isSpaceChar).isEmpty)
    && code31A.isPrefixOf (cs.dropWhile isSpaceChar)
    && boundaryAfter ((cs.dropWhile isSpaceChar).drop code31A.length)

/-- Does the regex (minus the leading `\b`) match at the start of `cs`? -/
def matchBranch (cs : List Char) : Bool :=
  labelSpellings.any fun lab => lab.isPrefixOf cs && afterLabel (cs.drop lab.length)

/-- Like `re.search`: try the pattern at every position; `prev` is the character
just before the current position (for the leading word boundary). -/
def scanFrom : Option Char → List Char → Bool
  | _, [] => false
  | prev, c :: rest => (boundaryBefore prev && matchBranch (c :: rest)) || scanFrom (some c) rest

/-- The matcher `mentions_math_31a(text)` on a (non-null) string input:
`bool(_PREREQ_RE.search(text))`. -/
def mentions_math_31a (text : String) : Bool :=
  scanFrom none text.data

/-- The matcher `mentions_math_31a(text)` where the argument may be `None`: the source
guards with `text or ""`, so a missing value is searched as the empty string. -/
def mentions_math_31a_opt (text : Option String) : Bool :=
  mentions_math_31a (text.getD "")

/-! ### Declarative reading of the regex (the spec's wording) -/

/-- Modelled from the spec's words, for the refinement claim about the
matcher: `t` contains one of the accepted spellings, preceded by a word
boundary, followed by whitespace and the literal token `31A`, followed by a
word boundary. -/
def MatcherSpec (cs : List Char) : Prop :=
  ∃ pre lab sp post,
    cs = pre ++ (lab ++ (sp ++ (code31A ++ post))) ∧
    lab ∈ labelSpellings ∧
    sp ≠ [] ∧ (∀ c ∈ sp, isSpaceChar c = true) ∧
    (pre = [] ∨ ∃ c, pre.getLast? = some c ∧ isWordChar c = false) ∧
    (post = [] ∨ ∃ c, post.head? = some c ∧ isWordChar c = false)

/-! ### Raw records and the normaliser -/

/-- Python `str.strip()` (over the same ASCII whitespace set): drop whitespace
from both ends. -/
def pyStrip (s : String) : String :=
  ⟨((s.data.dropWhile isSpaceChar).reverse.dropWhile isSpaceChar).reverse⟩

/-- A raw API record, as consumed by the normaliser: each key of interest is
either absent (`none` — `dict.get` then yields the default) or present with a
string value.  (The source assumes present values are strings: it calls
`.strip()` on them directly.) -/
structure RawRecord where
  subj_area_cd : Option String
  course_title : Option String
  crs_desc : Option String
  subj_area_nm : Option String
  unt_rng : Option String
  crs_career_lvl_nm : Option String
deriving DecidableEq, Repr

/-- The fixed five-string-field output row shape. -/
structure NormalizedRow where
  subject_area : String
  course_name : String
  units : String
  level : String
  description : String
deriving DecidableEq, Repr

/-- The dedup key: `(c.get("subj_area_cd", "").strip(), c.get("course_title", "").strip())`. -/
def rawKey (c : RawRecord) : String × String :=
  (pyStrip (c.subj_area_cd.getD ""), pyStrip (c.course_title.getD ""))

/-- The stripped description, `desc = (c.get("crs_desc") or "").strip()`. -/
def rawDesc (c : RawRecord) : String :=
  pyStrip (c.crs_desc.getD "")

/-- The row appended for a record that survives dedup and the matcher
re-check: each field is the raw value with `None`/absent coerced to `""` and
whitespace stripped. -/
def mkRow (c : RawRecord) : NormalizedRow :=
  { subject_area := pyStrip (c.subj_area_nm.getD "")
    course_name := pyStrip (c.course_title.getD "")
    units := pyStrip (c.unt_rng.getD "")
    level := pyStrip (c.crs_career_lvl_nm.getD "")
    description := rawDesc c }

/-- Does the stripped description pass the matcher re-check? -/
def passesMatcher (c : RawRecord) : Bool :=
  mentions_math_31a (rawDesc c)

/-- The `for c in courses` loop of `normalise`, with the `seen` set made
explicit: skip if the key was seen; record the key; skip if the stripped
description fails the matcher; otherwise append the mapped row. -/
def normaliseRows : List RawRecord → List (String × String) → List NormalizedRow
  | [], _ => []
  | c :: cs, seen =>
    if rawKey c ∈ seen then normaliseRows cs seen
    else if passesMatcher c then mkRow c :: normaliseRows cs (rawKey c :: seen)
    else normaliseRows cs (rawKey c :: seen)

/-- Python string comparison: lexicographic on the code points, non-strict
(`x <= y`). -/
def charListLe : List Char → List Char → Bool
  | [], _ => true
  | _ :: _, [] => false
  | a :: as, b :: bs =>
    if a < b then true
    else if b < a then false
    else charListLe as bs

/-- The comparison performed by `rows.sort(key=lambda r: (r["subject_area"],
r["course_name"]))`: lexicographic non-strict order on the pair of strings,
each compared code-point-wise as Python does. -/
def rowLe (a b : NormalizedRow) : Prop :=
  (if a.subject_area = b.subject_area
   then charListLe a.course_name.data b.course_name.data
   else charListLe a.subject_area.data b.subject_area.data) = true

instance : DecidableRel rowLe := fun a b => by
  unfold rowLe; infer_instance

/-- The normaliser `normalise(courses)`: dedup + matcher re-check + field mapping, then a
stable sort by (subject_area, course_name). -/
def normalise (courses : List RawRecord) : List NormalizedRow :=
  (normaliseRows courses []).insertionSort rowLe

/-- The dedup pass alone (the `seen` logic of the loop, ignoring the matcher):
used to factor `normaliseRows` as dedup-then-filter-then-map. -/
def dedupByKey : List RawRecord → List (String × String) → List RawRecord
  | [], _ => []
  | c :: cs, seen =>
    if rawKey c ∈ seen then dedupByKey cs seen
    else c :: dedupByKey cs (rawKey c :: seen)

/-! ### The fetcher's retry loop -/

/-- The shape of a parsed JSON response, at the granularity the program
inspects it: either a sequence of records (`isinstance(results, list)`) or
some other value. -/
inductive JsonVal where
  | arr (records : List RawRecord)
  | notArr
deriving DecidableEq, Repr

/-- The outcome of one `urlopen`+`json.loads` attempt, supplied by a
simulation oracle: a parsed body, an `HTTPError` with a status code, or any
other exception (timeout, transport failure, decode error...). -/
inductive FetchOutcome where
  | success (v : JsonVal)
  | httpError (code : Nat)
  | netError
deriving DecidableEq, Repr

/-- An exception propagating out of `fetch_json`. -/
inductive FetchErr where
  | http (code : Nat)
  | net
deriving DecidableEq, Repr

deriving instance DecidableEq for Except

/-- What a run of `fetch_json` did: its result (a value, or a raised
exception), the sequence of `time.sleep` durations, and how many fetch
attempts were made. -/
structure FetchTrace where
  result : Except FetchErr JsonVal
  waits : List ℚ
  attempts : Nat
deriving DecidableEq, Repr

/-- The `for attempt in range(retries)` loop of `fetch_json`, with `i` the
0-based index of the current attempt and `fuel` the attempts remaining
(`retries - i`).  Falling out of the loop returns `[]`; a 429/503 response
sleeps `backoff * (attempt + 1)` and retries (even on the last attempt, where
the loop then ends); any other `HTTPError` re-raises at once; any other
exception sleeps `backoff` and retries unless this was the last attempt, in
which case it re-raises. -/
def fetchGo (oracle : Nat → FetchOutcome) (backoff : ℚ) : Nat → Nat → FetchTrace
  | _, 0 => ⟨.ok (JsonVal.arr []), [], 0⟩
  | i, fuel + 1 =>
    match oracle i with
    | .success v => ⟨.ok v, [], 1⟩
    | .httpError code =>
      if code = 429 ∨ code = 503 then
        let t := fetchGo oracle backoff (i + 1) fuel
        ⟨t.result, backoff * (i + 1 : ℚ) :: t.waits, t.attempts + 1⟩
      else ⟨.error (.http code), [], 1⟩
    | .netError =>
      if fuel = 0 then ⟨.error .net, [], 1⟩
      else
        let t := fetchGo oracle backoff (i + 1) fuel
        ⟨t.result, backoff :: t.waits, t.attempts + 1⟩

/-- The fetcher `fetch_json(url, retries, backoff)`, with the network replaced by the
oracle.  The source's defaults are `retries=3`, `backoff=2.0`. -/
def fetch_json (oracle : Nat → FetchOutcome) (retries : Nat) (backoff : ℚ) : FetchTrace :=
  fetchGo oracle backoff 0 retries

/-! ### Collection strategies and the orchestrator -/

/-- Strategy A, `search_strategy()`: one `fetch_json` call; an exception propagates (there
is no handler on this path); a non-list body is logged and becomes `[]`. -/
def search_strategy (oracle : Nat → FetchOutcome) (backoff : ℚ) :
    Except FetchErr (List RawRecord) :=
  match (fetch_json oracle 3 backoff).result with
  | .error e => .error e
  | .ok (JsonVal.arr xs) => .ok xs
  | .ok JsonVal.notArr => .ok []

/-- The local filter of Strategy B:
`[c for c in courses if mentions_math_31a(c.get("crs_desc", ""))]`. -/
def subject_hits (courses : List RawRecord) : List RawRecord :=
  courses.filter fun c => mentions_math_31a (c.crs_desc.getD "")

/-- An error aborting the Strategy B loop from outside its `try` block:
iterating a non-sequence body and calling `.get` on its elements raises. -/
inductive StratBErr where
  | typeError
deriving DecidableEq, Repr

/-- The per-subject loop of `all_subjects_strategy`, one fetch oracle per
subject area: a `fetch_json` exception is caught by the loop's `try/except`
and the loop continues with the next subject; a list body is filtered by the
matcher and the hits accumulated.  (The comprehension over a non-sequence
body runs outside the `try` and raises out of the strategy; an empty
non-sequence container would instead yield no hits, a case no claim
exercises.) -/
def subjects_loop (backoff : ℚ) : List (Nat → FetchOutcome) → Except StratBErr (List RawRecord)
  | [] => .ok []
  | o :: os =>
    match (fetch_json o 3 backoff).result with
    | .error _ => subjects_loop backoff os
    | .ok (JsonVal.arr xs) =>
      match subjects_loop backoff os with
      | .error e => .error e
      | .ok rest => .ok (subject_hits xs ++ rest)
    | .ok JsonVal.notArr => .error .typeError

/-- A file write performed by `main`'s export phase. -/
inductive ExportEvent where
  | excel (rows : List NormalizedRow)
  | csv (rows : List NormalizedRow)
deriving DecidableEq, Repr

/-- The logic of `main` after collection has produced `raw`: exit 1 (writing
nothing) if `raw` is empty; normalise; exit 1 (writing nothing) if no rows
survive; otherwise export the spreadsheet, then the CSV when `--csv` was
given, and exit 0.  Returns (exit code, writes performed). -/
def run_pipeline (raw : List RawRecord) (csvFlag : Bool) : Nat × List ExportEvent :=
  if raw = [] then (1, [])
  else
    let rows := normalise raw
    if rows = [] then (1, [])
    else (0, ExportEvent.excel rows :: if csvFlag then [ExportEvent.csv rows] else [])

/-- How a run of `main` ends on the Strategy A path. -/
inductive MainOutcome where
  | exited (code : Nat) (written : List ExportEvent)
  | aborted (e : FetchErr)
deriving DecidableEq, Repr

/-- The run of `main` on the default (Strategy A) path: an exception from the fetch has
no handler anywhere and aborts the run; otherwise the pipeline runs on the
collected records. -/
def main_search (oracle : Nat → FetchOutcome) (backoff : ℚ) (csvFlag : Bool) : MainOutcome :=
  match search_strategy oracle backoff with
  | .error e => .aborted e
  | .ok raw =>
    let r := run_pipeline raw csvFlag
    .exited r.1 r.2

/-! ### C1: the executable matcher agrees with its declarative reading -/

lemma labelSpellings_ne_nil : ∀ lab ∈ labelSpellings, lab ≠ [] := by decide

lemma takeWhile_append_of_all {α : Type} {p : α → Bool} :
    ∀ l₁ l₂ : List α, (∀ c ∈ l₁, p c = true) →
      (∀ c, l₂.head? = some c → p c = false) →
      (l₁ ++ l₂).takeWhile p = l₁ ∧ (l₁ ++ l₂).dropWhile p = l₂
  | [], l₂, _, h₂ => by
    cases l₂ with
    | nil => simp
    | cons c t =>
      have hc := h₂ c rfl
      simp [List.takeWhile_cons, List.dropWhile_cons, hc]
  | c :: l₁, l₂, h₁, h₂ => by
    have hc : p c = true := h₁ c (List.mem_cons_self ..)
    have ih := takeWhile_append_of_all l₁ l₂ (fun d hd => h₁ d (List.mem_cons_of_mem _ hd)) h₂
    simp [List.takeWhile_cons, List.dropWhile_cons, hc, ih.1, ih.2]

/-- The regex (minus the leading boundary) matches at the start of `cs`. -/
def HereSpec (cs : List Char) : Prop :=
  ∃ lab sp post,
    cs = lab ++ (sp ++ (code31A ++ post)) ∧ lab ∈ labelSpellings ∧
    sp ≠ [] ∧ (∀ c ∈ sp, isSpaceChar c = true) ∧ boundaryAfter post = true

lemma matchBranch_iff (cs : List Char) : matchBranch cs = true ↔ HereSpec cs := by
  constructor
  · intro h
    rw [matchBranch, List.any_eq_true] at h
    obtain ⟨lab, hlab, hb⟩ := h
    rw [Bool.and_eq_true] at hb
    obtain ⟨hpre, haft⟩ := hb
    obtain ⟨t, ht⟩ := List.isPrefixOf_iff_prefix.mp hpre
    subst ht
    rw [List.drop_left] at haft
    rw [afterLabel, Bool.and_eq_true, Bool.and_eq_true] at haft
    obtain ⟨⟨hsp, hpref⟩, hbd⟩ := haft
    obtain ⟨u, hu⟩ := List.isPrefixOf_iff_prefix.mp hpref
    refine ⟨lab, t.takeWhile isSpaceChar, u, ?_, hlab, ?_, ?_, ?_⟩
    · rw [hu, List.takeWhile_append_dropWhile]
    · intro hnil
      rw [hnil] at hsp
      simp at hsp
    · exact fun c hc => List.mem_takeWhile_imp hc
    · rw [← hu, List.drop_left] at hbd
      exact hbd
  · rintro ⟨lab, sp, post, rfl, hlab, hsp, hsped, hbd⟩
    rw [matchBranch, List.any_eq_true]
    refine ⟨lab, hlab, ?_⟩
    rw [Bool.and_eq_true]
    refine ⟨List.isPrefixOf_iff_prefix.mpr ⟨_, rfl⟩, ?_⟩
    rw [List.drop_left]
    have h3 : ∀ c, (code31A ++ post).head? = some c → isSpaceChar c = false := by
      intro c hc
      simp [code31A] at hc
      rw [← hc]
      decide
    have htd := takeWhile_append_of_all sp (code31A ++ post) hsped h3
    rw [afterLabel, htd.1, htd.2, Bool.and_eq_true, Bool.and_eq_true]
    refine ⟨⟨?_, List.isPrefixOf_iff_prefix.mpr ⟨post, rfl⟩⟩, ?_⟩
    · simp [hsp]
    · rw [List.drop_left]
      exact hbd

/-- The leading word-boundary condition for a match preceded by `pre`, where
`prev` is the character just before the scanned region: the boundary depends
on the last character of `pre`, or on `prev` when `pre` is empty. -/
def PreOK : Option Char → List Char → Prop
  | prev, [] => boundaryBefore prev = true
  | _, c :: pre => PreOK (some c) pre

lemma preOK_nil (prev : Option Char) : PreOK prev [] ↔ boundaryBefore prev = true :=
  Iff.rfl

lemma preOK_cons (prev : Option Char) (c : Char) (pre : List Char) :
    PreOK prev (c :: pre) ↔ PreOK (some c) pre :=
  Iff.rfl

lemma preOK_iff : ∀ (pre : List Char) (prev : Option Char),
    PreOK prev pre ↔ ((pre = [] ∧ boundaryBefore prev = true) ∨
      ∃ c, pre.getLast? = some c ∧ isWordChar c = false)
  | [], prev => by simp [PreOK]
  | c :: pre, prev => by
    rw [preOK_cons, preOK_iff pre (some c)]
    cases pre with
    | nil => simp [boundaryBefore, Bool.not_eq_true', List.getLast?_singleton]
    | cons d pre' => simp [List.getLast?_cons_cons]

/-- A match somewhere in `cs`, with `prev` the character before `cs`. -/
def ScanSpec (prev : Option Char) (cs : List Char) : Prop :=
  ∃ pre lab sp post,
    cs = pre ++ (lab ++ (sp ++ (code31A ++ post))) ∧ lab ∈ labelSpellings ∧
    sp ≠ [] ∧ (∀ c ∈ sp, isSpaceChar c = true) ∧ PreOK prev pre ∧ boundaryAfter post = true

lemma scanFrom_iff : ∀ (cs : List Char) (prev : Option Char),
    scanFrom prev cs = true ↔ ScanSpec prev cs := by
  intro cs
  induction cs with
  | nil =>
    intro prev
    constructor
    · intro h
      simp [scanFrom] at h
    · rintro ⟨pre, lab, sp, post, heq, hlab, -, -, -, -⟩
      rw [eq_comm, List.append_eq_nil] at heq
      rw [List.append_eq_nil] at heq
      exact absurd heq.2.1 (labelSpellings_ne_nil lab hlab)
  | cons c rest ih =>
    intro prev
    rw [show scanFrom prev (c :: rest) =
          ((boundaryBefore prev && matchBranch (c :: rest)) || scanFrom (some c) rest) from rfl]
    rw [Bool.or_eq_true, Bool.and_eq_true, matchBranch_iff, ih (some c)]
    constructor
    · rintro (⟨hbb, lab, sp, post, heq, hlab, h1, h2, h3⟩ | hscan)
      · exact ⟨[], lab, sp, post, by simpa using heq, hlab, h1, h2,
          (preOK_nil prev).mpr hbb, h3⟩
      · obtain ⟨pre, lab, sp, post, heq, hlab, h1, h2, hpre, h3⟩ := hscan
        exact ⟨c :: pre, lab, sp, post, by simp [heq], hlab, h1, h2,
          (preOK_cons prev c pre).mpr hpre, h3⟩
    · rintro ⟨pre, lab, sp, post, heq, hlab, h1, h2, hpre, h3⟩
      cases pre with
      | nil =>
        exact Or.inl ⟨(preOK_nil prev).mp hpre, lab, sp, post, by simpa using heq,
          hlab, h1, h2, h3⟩
      | cons c' pre' =>
        rw [List.cons_append] at heq
        injection heq with hc hrest
        subst hc
        exact Or.inr ⟨pre', lab, sp, post, hrest, hlab, h1, h2,
          (preOK_cons prev c pre').mp hpre, h3⟩

lemma preOK_none_iff (pre : List Char) :
    PreOK none pre ↔ (pre = [] ∨ ∃ c, pre.getLast? = some c ∧ isWordChar c = false) := by
  rw [preOK_iff]
  simp [boundaryBefore]

lemma boundaryAfter_iff (post : List Char) :
    boundaryAfter post = true ↔ (post = [] ∨ ∃ c, post.head? = some c ∧ isWordChar c = false) := by
  cases post with
  | nil => simp [boundaryAfter]
  | cons d t => simp [boundaryAfter, Bool.not_eq_true']

lemma matcherSpec_iff (cs : List Char) : MatcherSpec cs ↔ ScanSpec none cs := by
  unfold MatcherSpec ScanSpec
  refine exists_congr fun pre => exists_congr fun lab => exists_congr fun sp =>
    exists_congr fun post => ?_
  rw [preOK_none_iff, boundaryAfter_iff]

/-- C1: for every input text `t`, `mentions_math_31a(t)` is true iff `t`
contains one of the accepted spellings (`Mathematics`, `Math`, `Math.`,
`MATH`) followed by whitespace and the literal token `31A`, anchored to word
boundaries; in particular the four concrete examples evaluate as the spec
says, and a missing (`None`) input is non-matching without error. -/
theorem c1_matcher_correct :
    (∀ t : String, mentions_math_31a t = true ↔ MatcherSpec t.data) ∧
    mentions_math_31a "Prerequisite: Mathematics 31A or equivalent." = true ∧
    mentions_math_31a "Math. 31A recommended" = true ∧
    mentions_math_31a "Mathematics 131A" = false ∧
    mentions_math_31a "" = false ∧
    mentions_math_31a_opt none = false := by
  refine ⟨fun t => ?_, by decide, by decide, by decide, by decide, by decide⟩
  rw [mentions_math_31a, scanFrom_iff t.data none]
  exact (matcherSpec_iff t.data).symm

/-! ### Structure of the normaliser loop -/

lemma normaliseRows_eq_filter_map (cs : List RawRecord) :
    ∀ seen, normaliseRows cs seen = ((dedupByKey cs seen).filter passesMatcher).map mkRow := by
  induction cs with
  | nil => intro seen; rfl
  | cons c cs ih =>
    intro seen
    rw [normaliseRows, dedupByKey]
    by_cases hk : rawKey c ∈ seen
    · simp only [if_pos hk, ih seen]
    · by_cases hm : passesMatcher c = true
      · simp [if_neg hk, hm, List.filter_cons, ih]
      · simp [if_neg hk, hm, List.filter_cons, ih]

lemma dedupByKey_sublist (cs : List RawRecord) :
    ∀ seen, List.Sublist (dedupByKey cs seen) cs := by
  induction cs with
  | nil => intro seen; exact List.Sublist.refl []
  | cons c cs ih =>
    intro seen
    rw [dedupByKey]
    by_cases hk : rawKey c ∈ seen
    · rw [if_pos hk]
      exact (ih seen).trans (List.sublist_cons_self c cs)
    · rw [if_neg hk]
      exact (ih _).cons₂ c

lemma dedupByKey_keys_nodup (cs : List RawRecord) :
    ∀ seen, ((dedupByKey cs seen).map rawKey).Nodup ∧
      ∀ k ∈ (dedupByKey cs seen).map rawKey, k ∉ seen := by
  induction cs with
  | nil => intro seen; exact ⟨List.nodup_nil, by simp [dedupByKey]⟩
  | cons c cs ih =>
    intro seen
    rw [dedupByKey]
    by_cases hk : rawKey c ∈ seen
    · simpa only [if_pos hk] using ih seen
    · simp only [if_neg hk, List.map_cons]
      obtain ⟨hnd, hnotin⟩ := ih (rawKey c :: seen)
      constructor
      · rw [List.nodup_cons]
        exact ⟨fun hmem => (hnotin _ hmem) (List.mem_cons_self ..), hnd⟩
      · intro k hkmem
        rcases List.mem_cons.mp hkmem with h | h
        · rw [h]; exact hk
        · exact fun hs => (hnotin k h) (List.mem_cons_of_mem _ hs)

lemma dedupByKey_find? (cs : List RawRecord) :
    ∀ (seen : List (String × String)) (k : String × String), k ∉ seen →
      (dedupByKey cs seen).find? (fun c => decide (rawKey c = k)) =
        cs.find? (fun c => decide (rawKey c = k)) := by
  induction cs with
  | nil => intro seen k _; rfl
  | cons c cs ih =>
    intro seen k hk
    rw [dedupByKey]
    by_cases hcs : rawKey c ∈ seen
    · rw [if_pos hcs]
      have hne : rawKey c ≠ k := fun h => hk (h ▸ hcs)
      rw [List.find?_cons_of_neg _ (by simpa using hne), ih seen k hk]
    · rw [if_neg hcs]
      by_cases hek : rawKey c = k
      · rw [List.find?_cons_of_pos _ (by simpa using hek),
          List.find?_cons_of_pos _ (by simpa using hek)]
      · rw [List.find?_cons_of_neg _ (by simpa using hek),
          List.find?_cons_of_neg _ (by simpa using hek)]
        refine ih _ k ?_
        rw [List.mem_cons]
        push_neg
        exact ⟨fun h => hek h.symm, hk⟩

/-- C2: every row of `normalise`'s output has a description accepted by the
matcher, for every input list — the normaliser's own re-check establishes the
invariant regardless of which collection strategy produced the input. -/
theorem c2_output_descriptions_match (cs : List RawRecord) (r : NormalizedRow) :
    r ∈ normalise cs → mentions_math_31a r.description = true := by
  intro hr
  rw [normalise, List.mem_insertionSort, normaliseRows_eq_filter_map] at hr
  obtain ⟨c, hc, rfl⟩ := List.mem_map.mp hr
  exact (List.mem_filter.mp hc).2

theorem c2_output_descriptions_match_witness :
    mentions_math_31a (NormalizedRow.mk "Mathematics (MATH)" "31B. Integration" "4.0"
      "Lower Division Courses" "Requires Mathematics 31A.").description = true :=
  c2_output_descriptions_match
    [⟨some "MATH", some "31B. Integration", some "Requires Mathematics 31A.",
      some "Mathematics (MATH)", some "4.0", some "Lower Division Courses"⟩]
    (NormalizedRow.mk "Mathematics (MATH)" "31B. Integration" "4.0"
      "Lower Division Courses" "Requires Mathematics 31A.")
    (by decide)

/-- C3: the rows produced before sorting are exactly one per distinct dedup
key (subject code, course title, both stripped), first-seen-wins in input
order: the kept keys are nodup, the record kept for a key is the first record
of the input bearing that key, and a second record with the key of an earlier
one contributes nothing — if the first matches, exactly its row is retained. -/
theorem c3_dedup_by_key_first_seen (cs : List RawRecord) (k : String × String)
    (r1 r2 : RawRecord) :
    ((dedupByKey cs []).map rawKey).Nodup ∧
    ((dedupByKey cs []).find? (fun c => decide (rawKey c = k)) =
      cs.find? (fun c => decide (rawKey c = k))) ∧
    (normaliseRows cs [] = ((dedupByKey cs []).filter passesMatcher).map mkRow) ∧
    (rawKey r1 = rawKey r2 → normaliseRows [r1, r2] [] = normaliseRows [r1] []) ∧
    (rawKey r1 = rawKey r2 → passesMatcher r1 = true →
      normaliseRows [r1, r2] [] = [mkRow r1]) := by
  refine ⟨(dedupByKey_keys_nodup cs []).1, dedupByKey_find? cs [] k (by simp),
    normaliseRows_eq_filter_map cs [], ?_, ?_⟩
  · intro hk
    by_cases hp : passesMatcher r1 = true <;> simp [normaliseRows, ← hk, hp]
  · intro hk hp
    simp [normaliseRows, ← hk, hp]

theorem c3_dedup_by_key_first_seen_witness :
    normaliseRows
      [⟨some "CHEM", some "20A. Chemical Structure", some "Requires Mathematics 31A.",
        some "Chemistry (CHEM)", some "4.0", some "Lower Division Courses"⟩,
       ⟨some "CHEM", some "20A. Chemical Structure", some "Preparation: Math. 31A strongly advised.",
        some "Chemistry (CHEM)", some "4.0", some "Lower Division Courses"⟩] [] =
      [mkRow ⟨some "CHEM", some "20A. Chemical Structure", some "Requires Mathematics 31A.",
        some "Chemistry (CHEM)", some "4.0", some "Lower Division Courses"⟩] :=
  (c3_dedup_by_key_first_seen [] ("", "")
    ⟨some "CHEM", some "20A. Chemical Structure", some "Requires Mathematics 31A.",
      some "Chemistry (CHEM)", some "4.0", some "Lower Division Courses"⟩
    ⟨some "CHEM", some "20A. Chemical Structure", some "Preparation: Math. 31A strongly advised.",
      some "Chemistry (CHEM)", some "4.0", some "Lower Division Courses"⟩).2.2.2.2
    (by decide) (by decide)

/-! ### C7: row shape, missing-value defaults, trimming -/

/-- No whitespace at either end of the string. -/
def Trimmed (s : String) : Prop :=
  (∀ c, s.data.head? = some c → isSpaceChar c = false) ∧
  (∀ c, s.data.getLast? = some c → isSpaceChar c = false)

lemma head?_dropWhile {α : Type} (p : α → Bool) (l : List α) :
    ∀ c, (l.dropWhile p).head? = some c → p c = false := by
  induction l with
  | nil => intro c h; simp at h
  | cons a l ih =>
    intro c h
    rw [List.dropWhile_cons] at h
    by_cases hp : p a = true
    · rw [if_pos hp] at h
      exact ih c h
    · rw [if_neg hp] at h
      rw [List.head?_cons] at h
      injection h with h
      rw [← h]
      exact Bool.eq_false_iff.mpr hp

lemma suffix_getLast? {α : Type} {l₁ l₂ : List α} (h : l₁ <:+ l₂) (hne : l₁ ≠ []) :
    l₂.getLast? = l₁.getLast? := by
  obtain ⟨t, rfl⟩ := h
  rw [List.getLast?_append]
  cases hl : l₁.getLast? with
  | none => rw [List.getLast?_eq_none_iff] at hl; exact absurd hl hne
  | some c => rfl

lemma pyStrip_data (s : String) :
    (pyStrip s).data = ((s.data.dropWhile isSpaceChar).reverse.dropWhile isSpaceChar).reverse :=
  rfl

lemma pyStrip_trimmed (s : String) : Trimmed (pyStrip s) := by
  constructor
  · intro c hc
    rw [pyStrip_data, List.head?_reverse] at hc
    have hne : (((s.data.dropWhile isSpaceChar).reverse).dropWhile isSpaceChar) ≠ [] := by
      intro h
      rw [h] at hc
      simp at hc
    have hsfx := List.dropWhile_suffix (l := (s.data.dropWhile isSpaceChar).reverse) isSpaceChar
    rw [← suffix_getLast? hsfx hne, List.getLast?_reverse] at hc
    exact head?_dropWhile isSpaceChar s.data c hc
  · intro c hc
    rw [pyStrip_data, List.getLast?_reverse] at hc
    exact head?_dropWhile isSpaceChar _ c hc

/-- C7: every output row is the field mapping of some input record: five
string fields, absent source values becoming `""` (never a null marker), and
every field trimmed of surrounding whitespace. -/
theorem c7_row_fields (cs : List RawRecord) (r : NormalizedRow) :
    r ∈ normalise cs →
      (∃ c ∈ cs, r = mkRow c ∧
        (c.subj_area_nm = none → r.subject_area = "") ∧
        (c.course_title = none → r.course_name = "") ∧
        (c.unt_rng = none → r.units = "") ∧
        (c.crs_career_lvl_nm = none → r.level = "") ∧
        (c.crs_desc = none → r.description = "")) ∧
      Trimmed r.subject_area ∧ Trimmed r.course_name ∧ Trimmed r.units ∧
      Trimmed r.level ∧ Trimmed r.description := by
  intro hr
  rw [normalise, List.mem_insertionSort, normaliseRows_eq_filter_map] at hr
  obtain ⟨c, hc, rfl⟩ := List.mem_map.mp hr
  have hcs : c ∈ cs := ((dedupByKey_sublist cs []).subset) ((List.mem_filter.mp hc).1)
  refine ⟨⟨c, hcs, rfl, ?_, ?_, ?_, ?_, ?_⟩,
    pyStrip_trimmed _, pyStrip_trimmed _, pyStrip_trimmed _, pyStrip_trimmed _,
    pyStrip_trimmed _⟩
  all_goals intro h
  · rw [show (mkRow c).subject_area = pyStrip (c.subj_area_nm.getD "") from rfl, h]; decide
  · rw [show (mkRow c).course_name = pyStrip (c.course_title.getD "") from rfl, h]; decide
  · rw [show (mkRow c).units = pyStrip (c.unt_rng.getD "") from rfl, h]; decide
  · rw [show (mkRow c).level = pyStrip (c.crs_career_lvl_nm.getD "") from rfl, h]; decide
  · rw [show (mkRow c).description = pyStrip (c.crs_desc.getD "") from rfl, h]; decide

theorem c7_row_fields_witness :
    Trimmed (NormalizedRow.mk "Mathematics (MATH)" "31B. Integration" "4.0"
      "Lower Division Courses" "Requires Mathematics 31A.").subject_area :=
  (c7_row_fields
    [⟨some "MATH", some "31B. Integration", some "Requires Mathematics 31A.",
      some "Mathematics (MATH)", some "4.0", some "Lower Division Courses"⟩]
    (NormalizedRow.mk "Mathematics (MATH)" "31B. Integration" "4.0"
      "Lower Division Courses" "Requires Mathematics 31A.")
    (by decide)).2.1

/-! ### C4: the output ordering -/

lemma charListLe_total : ∀ x y : List Char, charListLe x y = true ∨ charListLe y x = true
  | [], _ => Or.inl rfl
  | _ :: _, [] => Or.inr rfl
  | a :: as, b :: bs => by
    rcases lt_trichotomy a b with h | h | h
    · left; simp [charListLe, h]
    · subst h
      rcases charListLe_total as bs with ih | ih
      · left; simp [charListLe, lt_irrefl, ih]
      · right; simp [charListLe, lt_irrefl, ih]
    · right; simp [charListLe, h]

lemma charListLe_trans : ∀ x y z : List Char,
    charListLe x y = true → charListLe y z = true → charListLe x z = true
  | [], _, _, _, _ => rfl
  | _ :: _, [], _, h1, _ => by simp [charListLe] at h1
  | _ :: _, _ :: _, [], _, h2 => by simp [charListLe] at h2
  | a :: as, b :: bs, c :: cs, h1, h2 => by
    rcases lt_trichotomy a b with hab | hab | hab
    · rcases lt_trichotomy b c with hbc | hbc | hbc
      · simp [charListLe, lt_trans hab hbc]
      · subst hbc; simp [charListLe, hab]
      · rw [charListLe] at h2
        simp [lt_asymm hbc, hbc] at h2
    · subst hab
      rcases lt_trichotomy a c with hac | hac | hac
      · simp [charListLe, hac]
      · subst hac
        rw [charListLe] at h1 h2 ⊢
        simp only [lt_irrefl, if_false] at h1 h2 ⊢
        exact charListLe_trans as bs cs h1 h2
      · rw [charListLe] at h2
        simp [lt_asymm hac, hac] at h2
    · rw [charListLe] at h1
      simp [lt_asymm hab, hab] at h1

lemma charListLe_antisymm : ∀ x y : List Char,
    charListLe x y = true → charListLe y x = true → x = y
  | [], [], _, _ => rfl
  | [], _ :: _, _, h2 => by simp [charListLe] at h2
  | _ :: _, [], h1, _ => by simp [charListLe] at h1
  | a :: as, b :: bs, h1, h2 => by
    rcases lt_trichotomy a b with hab | hab | hab
    · rw [charListLe] at h2
      simp [hab, lt_asymm hab] at h2
    · subst hab
      rw [charListLe] at h1 h2
      simp only [lt_irrefl, if_false] at h1 h2
      rw [charListLe_antisymm as bs h1 h2]
    · rw [charListLe] at h1
      simp [hab, lt_asymm hab] at h1

instance : IsTotal NormalizedRow rowLe :=
  ⟨fun a b => by
    unfold rowLe
    by_cases h : a.subject_area = b.subject_area
    · rw [if_pos h, if_pos h.symm]
      exact charListLe_total _ _
    · rw [if_neg h, if_neg (fun h2 => h h2.symm)]
      exact charListLe_total _ _⟩

instance : IsTrans NormalizedRow rowLe :=
  ⟨fun a b c hab hbc => by
    unfold rowLe at hab hbc ⊢
    by_cases h1 : a.subject_area = b.subject_area <;>
      by_cases h2 : b.subject_area = c.subject_area
    · rw [if_pos h1] at hab
      rw [if_pos h2] at hbc
      rw [if_pos (h1.trans h2)]
      exact charListLe_trans _ _ _ hab hbc
    · rw [if_pos h1] at hab
      rw [if_neg h2] at hbc
      have h3 : a.subject_area ≠ c.subject_area := fun h => h2 (h1.symm.trans h)
      rw [if_neg h3, show a.subject_area = b.subject_area from h1]
      exact hbc
    · rw [if_neg h1] at hab
      rw [if_pos h2] at hbc
      have h3 : a.subject_area ≠ c.subject_area := fun h => h1 (h.trans h2.symm)
      rw [if_neg h3, ← h2]
      exact hab
    · rw [if_neg h1] at hab
      rw [if_neg h2] at hbc
      by_cases h3 : a.subject_area = c.subject_area
      · exfalso
        rw [h3] at hab
        have hbc2 := charListLe_antisymm _ _ hbc hab
        exact h2 (String.ext hbc2)
      · rw [if_neg h3]
        exact charListLe_trans _ _ _ hab hbc⟩

/-- C4: the output of `normalise` is totally ordered, non-decreasing by the
pair (subject_area, course_name), lexicographic on the string values; in
particular a Chemistry 20A row precedes a Mathematics 31B row regardless of
input order. -/
theorem c4_output_sorted (cs : List RawRecord) :
    List.Sorted rowLe (normalise cs) ∧
    normalise
      [⟨some "MATH", some "31B. Integration", some "Enforced requisite: Mathematics 31A.",
        some "Mathematics (MATH)", some "4.0", some "Lower Division Courses"⟩,
       ⟨some "CHEM", some "20A. Chemical Structure", some "Requires Mathematics 31A.",
        some "Chemistry (CHEM)", some "4.0", some "Lower Division Courses"⟩] =
      [mkRow ⟨some "CHEM", some "20A. Chemical Structure", some "Requires Mathematics 31A.",
        some "Chemistry (CHEM)", some "4.0", some "Lower Division Courses"⟩,
       mkRow ⟨some "MATH", some "31B. Integration", some "Enforced requisite: Mathematics 31A.",
        some "Mathematics (MATH)", some "4.0", some "Lower Division Courses"⟩] :=
  ⟨List.sorted_insertionSort rowLe (normaliseRows cs []), by decide⟩

/-! ### C9: dedup happens before the matcher re-check -/

/-- C9: because the dedup check precedes the matcher re-check, a non-matching
record shadows a later matching record bearing the same (subject code, course
title) key: the output then has no row at all for that key, although the
later record alone would have produced one. -/
theorem c9_dedup_shadows_matcher :
    rawKey ⟨some "CHEM", some "20A. Chemical Structure", some "No calculus required.",
        some "Chemistry (CHEM)", some "4.0", some "Lower Division Courses"⟩ =
      rawKey ⟨some "CHEM", some "20A. Chemical Structure", some "Requires Mathematics 31A.",
        some "Chemistry (CHEM)", some "4.0", some "Lower Division Courses"⟩ ∧
    passesMatcher ⟨some "CHEM", some "20A. Chemical Structure", some "No calculus required.",
      some "Chemistry (CHEM)", some "4.0", some "Lower Division Courses"⟩ = false ∧
    passesMatcher ⟨some "CHEM", some "20A. Chemical Structure", some "Requires Mathematics 31A.",
      some "Chemistry (CHEM)", some "4.0", some "Lower Division Courses"⟩ = true ∧
    normalise
      [⟨some "CHEM", some "20A. Chemical Structure", some "No calculus required.",
        some "Chemistry (CHEM)", some "4.0", some "Lower Division Courses"⟩,
       ⟨some "CHEM", some "20A. Chemical Structure", some "Requires Mathematics 31A.",
        some "Chemistry (CHEM)", some "4.0", some "Lower Division Courses"⟩] = [] ∧
    normalise
      [⟨some "CHEM", some "20A. Chemical Structure", some "Requires Mathematics 31A.",
        some "Chemistry (CHEM)", some "4.0", some "Lower Division Courses"⟩] ≠ [] := by
  decide

/-! ### C10: normalise applied to its own output -/

/-- A normalised row, read back as a raw API mapping: the row dict carries
only the output field names (`subject_area`, `course_name`, ...), so every
lookup of a raw API key (`subj_area_cd`, `course_title`, `crs_desc`, ...)
misses and yields the default. -/
def rowToRaw (_ : NormalizedRow) : RawRecord :=
  ⟨none, none, none, none, none, none⟩

lemma normaliseRows_blank (n : Nat) :
    ∀ seen, normaliseRows (List.replicate n ⟨none, none, none, none, none, none⟩) seen = [] := by
  induction n with
  | zero => intro seen; rfl
  | succ n ih =>
    intro seen
    rw [List.replicate_succ, normaliseRows]
    by_cases hk : rawKey ⟨none, none, none, none, none, none⟩ ∈ seen
    · rw [if_pos hk]
      exact ih seen
    · rw [if_neg hk]
      have hp : passesMatcher (⟨none, none, none, none, none, none⟩ : RawRecord) = false := by
        decide
      simp only [hp, Bool.false_eq_true, if_false]
      exact ih _

/-- C10: `normalise` applied to its own output is the empty list: the output
rows carry the normalised field names, so on a second pass every row has the
dedup key `("", "")` and an empty description that fails the matcher
re-check — `normalise` is not idempotent on its own output. -/
theorem c10_normalise_twice_empty (cs : List RawRecord) :
    normalise ((normalise cs).map rowToRaw) = [] := by
  have hmap : (normalise cs).map rowToRaw =
      List.replicate (normalise cs).length ⟨none, none, none, none, none, none⟩ :=
    List.map_const (normalise cs) _
  rw [normalise, hmap, normaliseRows_blank]
  rfl

/-! ### C5: the retry policy -/

lemma fetchGo_attempts_le (oracle : Nat → FetchOutcome) (b : ℚ) :
    ∀ fuel i, (fetchGo oracle b i fuel).attempts ≤ fuel := by
  intro fuel
  induction fuel with
  | zero => intro i; exact Nat.le_refl 0
  | succ fuel ih =>
    intro i
    cases ho : oracle i with
    | success v => simp [fetchGo, ho]
    | httpError code =>
      by_cases hc : code = 429 ∨ code = 503
      · have := ih (i + 1)
        simp [fetchGo, ho, hc]
        omega
      · simp [fetchGo, ho, hc]
    | netError =>
      by_cases hf : fuel = 0
      · simp [fetchGo, ho, hf]
      · have := ih (i + 1)
        simp [fetchGo, ho, hf]
        omega

/-- C5: the fetcher makes at most 3 attempts; a fetch rate-limited twice and
succeeding on the third attempt yields the payload with exactly two waits of
`backoff × 1` and `backoff × 2`; a fetch answering a non-retryable HTTP error
raises after exactly one attempt with no wait. -/
theorem c5_retry_policy (oracle : Nat → FetchOutcome) (b : ℚ) (v : JsonVal) (code : Nat) :
    (fetch_json oracle 3 b).attempts ≤ 3 ∧
    fetch_json (fun i => if i < 2 then FetchOutcome.httpError 429 else FetchOutcome.success v)
        3 b = ⟨.ok v, [b * 1, b * 2], 3⟩ ∧
    (code ≠ 429 → code ≠ 503 →
      fetch_json (fun _ => FetchOutcome.httpError code) 3 b = ⟨.error (.http code), [], 1⟩) := by
  refine ⟨fetchGo_attempts_le oracle b 3 0, ?_, ?_⟩
  · show fetchGo _ b 0 3 = _
    norm_num [fetchGo]
  · intro h1 h2
    have hc : ¬(code = 429 ∨ code = 503) := by tauto
    show fetchGo _ b 0 3 = _
    simp [fetchGo, hc]

theorem c5_retry_policy_witness :
    fetch_json (fun _ => FetchOutcome.httpError 404) 3 2 = ⟨.error (.http 404), [], 1⟩ :=
  (c5_retry_policy (fun _ => FetchOutcome.httpError 404) 2 (JsonVal.arr []) 404).2.2
    (by decide) (by decide)

/-! ### C6: what happens when the retry budget is exhausted -/

/-- C6 counterexample: the claim says that when the budget is exhausted on
transient errors the fetch "raises/propagates the failure" on the Strategy A
path.  With every attempt rate-limited (HTTP 429, a transient error) the
budget is exhausted, yet nothing is raised on the Strategy A path:
`fetch_json` returns the empty list, `search_strategy` returns it as a
successful empty result, and the run ends through the empty-result exit-1
path, not through a propagated fetch failure. -/
theorem c6_counterexample :
    (fetch_json (fun _ => FetchOutcome.httpError 429) 3 2).result = .ok (JsonVal.arr []) ∧
    search_strategy (fun _ => FetchOutcome.httpError 429) 2 = .ok [] ∧
    main_search (fun _ => FetchOutcome.httpError 429) 2 false = .exited 1 [] := by
  refine ⟨by decide, by decide, ?_⟩
  have h : search_strategy (fun _ => FetchOutcome.httpError 429) 2 = .ok [] := by decide
  rw [main_search, h]
  rfl

/-- C6 (amended): when the retry budget is exhausted on rate-limit or
service-unavailable responses, `fetch_json` returns an empty list in every
calling context; when it is exhausted on other transient exceptions,
`fetch_json` raises — the Strategy B per-subject loop absorbs any raised
fetch failure and continues, while on the Strategy A path a raised fetch
failure propagates unhandled and aborts the run. -/
theorem c6_exhaustion_behaviour (b : ℚ) (csvFlag : Bool) (oracle o : Nat → FetchOutcome)
    (os : List (Nat → FetchOutcome)) (e : FetchErr) :
    ((fetch_json (fun _ => FetchOutcome.httpError 429) 3 b).result = .ok (JsonVal.arr [])) ∧
    ((fetch_json (fun _ => FetchOutcome.httpError 503) 3 b).result = .ok (JsonVal.arr [])) ∧
    ((fetch_json (fun _ => FetchOutcome.netError) 3 b).result = .error .net) ∧
    ((fetch_json oracle 3 b).result = .error e → main_search oracle b csvFlag = .aborted e) ∧
    ((fetch_json o 3 b).result = .error e → subjects_loop b (o :: os) = subjects_loop b os) ∧
    (subjects_loop b ((fun _ => FetchOutcome.httpError 429) :: os) = subjects_loop b os) := by
  have h429 : (fetch_json (fun _ => FetchOutcome.httpError 429) 3 b).result =
      .ok (JsonVal.arr []) := by
    simp [fetch_json, fetchGo]
  refine ⟨h429, by simp [fetch_json, fetchGo], by simp [fetch_json, fetchGo], ?_, ?_, ?_⟩
  · intro h
    rw [main_search, search_strategy, h]
  · intro h
    rw [subjects_loop, h]
  · rw [subjects_loop, h429]
    cases subjects_loop b os with
    | error e => rfl
    | ok rest => simp [subject_hits]

theorem c6_exhaustion_behaviour_witness :
    main_search (fun _ => FetchOutcome.netError) 2 false = .aborted .net :=
  (c6_exhaustion_behaviour 2 false (fun _ => FetchOutcome.netError)
    (fun _ => FetchOutcome.netError) [] .net).2.2.2.1 (by decide)

/-! ### C8: exit codes and when exports happen -/

/-- C8: the orchestrator exits with status 1, writing no file, when
collection returned no records or normalisation produced no rows; exports
(spreadsheet, plus CSV when requested) happen only once normalisation has
produced at least one row, and then the run exits 0. -/
theorem c8_exit_and_export (raw : List RawRecord) (csvFlag : Bool) :
    ((run_pipeline raw csvFlag).1 = 1 ↔ (raw = [] ∨ normalise raw = [])) ∧
    ((raw = [] ∨ normalise raw = []) → run_pipeline raw csvFlag = (1, [])) ∧
    ((run_pipeline raw csvFlag).2 ≠ [] → normalise raw ≠ [] ∧
      (run_pipeline raw csvFlag).1 = 0 ∧
      (run_pipeline raw csvFlag).2 =
        ExportEvent.excel (normalise raw) ::
          (if csvFlag then [ExportEvent.csv (normalise raw)] else [])) := by
  by_cases h1 : raw = []
  · simp [run_pipeline, h1]
  · by_cases h2 : normalise raw = []
    · simp [run_pipeline, h1, h2]
    · simp [run_pipeline, h1, h2]

theorem c8_exit_and_export_witness :
    run_pipeline [] false = (1, []) :=
  (c8_exit_and_export [] false).2.1 (Or.inl rfl)
